import Mathlib

/-!
# Verification development for `timing/timing_pdgeqdwh.c`

A shallow embedding of the QDWH timing driver: the size sweep and its
`GuardSize` loop, the per-iteration accumulators (timers, status, flop count),
the sequence of external ScaLAPACK / QDWH calls of one matrix size together
with the local buffers they read and write, and the block-cyclic extent rule.

C `int` values are embedded as `Int`: the GuardSize loop is followed both on
exact integers (`guardSize`, for the statements that assume no overflow) and on
32-bit `int`s with wrap-around (`guardSizeInt`, `sweep`).  C `double` values
are embedded as `ℚ` (arithmetic taken as exact).  The one `double`
computation whose rounding matters for control flow, the quotient of line 214,
is also given in binary64 and shown to agree with the integer quotient on
32-bit operands.
-/

namespace TimingPdgeqdwh

/-! ## Size sweep and GuardSize (lines 213-218) -/

/-- The integral part of a rational: truncation towards zero. -/
def truncTowardZero (x : ℚ) : Int :=
  Int.tdiv x.num x.den

/-- The conversion of a `double` to the 32-bit `int` (lines 214, 308-309): the
value truncated towards zero when that is an `int`.  Outside the range of `int`
C leaves the conversion undefined; the x86-64 conversion instruction then gives
`INT_MIN`, which is the value taken here. -/
def doubleToInt (x : ℚ) : Int :=
  if -2147483648 ≤ truncTowardZero x ∧ truncTowardZero x ≤ 2147483647 then
    truncTowardZero x
  else
    -2147483648

/-- Rounding of a rational to the nearest integer, a tie going to the even
neighbour. -/
def roundHalfEven (y : ℚ) : Int :=
  if y - ⌊y⌋ < 1 / 2 then ⌊y⌋
  else if 1 / 2 < y - ⌊y⌋ then ⌊y⌋ + 1
  else if ⌊y⌋ % 2 = 0 then ⌊y⌋ else ⌊y⌋ + 1

/-- The binary64 value nearest to a positive rational `x` (round to nearest,
ties to even), the exponent range left unbounded: with `2 ^ e ≤ x < 2 ^ (e + 1)`,
the multiple of `2 ^ (e - 52)` nearest to `x`. -/
def roundPos53 (x : ℚ) : ℚ :=
  roundHalfEven (x * (2 : ℚ) ^ (52 - Int.log 2 x)) * (2 : ℚ) ^ (Int.log 2 x - 52)

/-- The binary64 value nearest to a rational; binary64 is a sign-magnitude
format, so a negative value rounds as its opposite does. -/
def toDouble (x : ℚ) : ℚ :=
  if x = 0 then 0 else if x < 0 then -roundPos53 (-x) else roundPos53 x

/-- The C expression `(int)((double)size / (double)nb)` of line 214 evaluated
in binary64: the operands convert exactly, the quotient is rounded to the
nearest binary64 value and the result truncated towards zero. -/
def sizeOverBlockDouble (size nb : Int) : Int :=
  doubleToInt (toDouble ((size : ℚ) / (nb : ℚ)))

/-- The C expression `(int)((double)size / (double)nb)` of line 214, as the
quotient of the two integers truncated towards zero.  For operands in the range
of a 32-bit `int` and `nb ≥ 1` this is what the binary64 evaluation
`sizeOverBlockDouble` gives (`sizeOverBlock_eq_double`). -/
def sizeOverBlock (size nb : Int) : Int :=
  Int.tdiv size nb

/-- Modelled from the spec: the macro `max` of line 214 comes from a header that
is not part of the source file; the spec reads `max(nprow, npcol)` as the larger
of the two grid dimensions. -/
def gridMax (nprow npcol : Int) : Int :=
  max nprow npcol

/-- The test of the inner `while` of line 214:
`(int)((double)size / (double)nb) < max(nprow, npcol)`. -/
def tooSmall (size nb nprow npcol : Int) : Bool :=
  decide (sizeOverBlock size nb < gridMax nprow npcol)

/-- The inner `while` loop of lines 214-217 (GuardSize): as long as the test
holds, `size += step`.  The result is the value of `size` when the loop is
left; `none` when the fuel runs out before that.  Here `size` is followed as
an exact integer, which is what the loop computes as long as `size += step`
does not overflow; `guardSizeInt` is the loop on the 32-bit `int`. -/
def guardSize : Nat → Int → Int → Int → Int → Int → Option Int
  | 0, _, _, _, _, _ => none
  | fuel + 1, size, step, nb, nprow, npcol =>
    if tooSmall size nb nprow npcol then
      guardSize fuel (size + step) step nb nprow npcol
    else
      some size

/-- The value of an `int` expression whose exact value is `x`: `x` itself when
it lies in `INT_MIN..INT_MAX`, and otherwise `x` brought back into that range
modulo `2 ^ 32` (the wrap-around of two's-complement `int` arithmetic). -/
def wrapInt (x : Int) : Int :=
  (x + 2147483648) % 4294967296 - 2147483648

/-- The inner `while` loop of lines 214-217 on the 32-bit `int size`: as
`guardSize`, with `size += step` wrapping around when it leaves the range of
`int`. -/
def guardSizeInt : Nat → Int → Int → Int → Int → Int → Option Int
  | 0, _, _, _, _, _ => none
  | fuel + 1, size, step, nb, nprow, npcol =>
    if tooSmall size nb nprow npcol then
      guardSizeInt fuel (wrapInt (size + step)) step nb nprow npcol
    else
      some size

/-- The `for` loop of lines 213-409, `for (size = start; size <= stop; size += step)`,
on the 32-bit `int size`: the body first runs GuardSize on `size` and then sets
`n = size` (line 218); both `size += step` wrap around when they leave the range
of `int`.  The result lists, in order, the values of `n` the body proceeds with
(for which it allocates, generates, invokes the decomposition and reports);
`none` when the fuel runs out.  The `return` of line 273 on a failed generation
ends the whole run and would only cut this list short; the sweep is followed
here as long as the generation succeeds. -/
def sweep : Nat → Int → Int → Int → Int → Int → Int → Option (List Int)
  | 0, _, _, _, _, _, _ => none
  | fuel + 1, size, stop, step, nb, nprow, npcol =>
    if size ≤ stop then
      match guardSizeInt fuel size step nb nprow npcol with
      | none => none
      | some n =>
        match sweep fuel (wrapInt (n + step)) stop step nb nprow npcol with
        | none => none
        | some rest => some (n :: rest)
    else
      some []

/-- The size `n` is what GuardSize leaves when started on `s0`: the first size
of the progression `s0, s0 + step, ...` for which the loop test fails. -/
def GuardResult (step nb nprow npcol s0 n : Int) : Prop :=
  ∃ k : Nat, n = s0 + k * step ∧
    (∀ j : Nat, j < k → tooSmall (s0 + j * step) nb nprow npcol = true) ∧
    tooSmall n nb nprow npcol = false

/-! ## Block-cyclic extents (the `numroc_` calls of lines 219-221) -/

/-- Modelled from the spec: `numroc_` is called at lines 219-221 but its code is
not part of the source file.  The number of contiguous chunks of `block_size`
indices into which `global_dim` indices are cut, the last one possibly partial. -/
def numChunks (global_dim block_size : Nat) : Nat :=
  (global_dim + block_size - 1) / block_size

/-- Modelled from the spec: `numroc_` is called at lines 219-221 but its code is
not part of the source file.  The number of indices of chunk `c`: the full
`block_size`, except that the last global chunk holds what is left. -/
def chunkSize (global_dim block_size c : Nat) : Nat :=
  min block_size (global_dim - c * block_size)

/-- Modelled from the spec: `numroc_` is called at lines 219-221 but its code is
not part of the source file.  Chunks are dealt round-robin along the axis,
starting at process 0 (the source process `i0 = 0` of the calls). -/
def chunkOwner (c proc_count : Nat) : Nat :=
  c % proc_count

/-- Modelled from the spec: `numroc_` is called at lines 219-221 but its code is
not part of the source file.  The local count of process `proc_coord` is the
sum, over the chunks it owns, of their sizes. -/
def local_extent (global_dim block_size proc_coord proc_count : Nat) : Nat :=
  ∑ c in (Finset.range (numChunks global_dim block_size)).filter
      (fun c => chunkOwner c proc_count = proc_coord),
    chunkSize global_dim block_size c

/-! ## Collective reductions -/

/-- One value per process of `MPI_COMM_WORLD`, which has at least one process:
the value of rank 0 and the values of the other ranks. -/
structure PerProcess (α : Type) where
  root : α
  others : List α

/-- All the values, in rank order. -/
def PerProcess.toList {α : Type} (v : PerProcess α) : List α :=
  v.root :: v.others

/-- Modelled from the spec: `MPI_Allreduce` is a library routine, not part of
the source file.  The call `MPI_Allreduce(&x, &y, 1, ..., MPI_MAX, MPI_COMM_WORLD)`
is a MAX-reduction across all processes: every process receives in `y` the
maximum of the values `x` of all processes. -/
def allreduceMax {α : Type} [LinearOrder α] (v : PerProcess α) : α :=
  v.others.foldl max v.root

/-! ## The counted `for` loop -/

/-- The loop `for (iter = 0; iter < niter; iter++) body`, as a state
transformer: the body runs for `iter = 0, ..., niter - 1`, not at all when
`niter ≤ 0`. -/
def forLoop {σ : Type} (niter : Int) (body : Nat → σ → σ) (s : σ) : σ :=
  (List.range niter.toNat).foldl (fun acc iter => body iter acc) s

/-! ## Timers, status and flop count of one size (lines 238-239, 322-353, 388-393) -/

/-- The scalar variables of `main` that the iteration loop updates and the
report prints.  `flops` and `info_facto_qw` have no initialiser in `main`:
`none` stands for a variable not yet assigned. -/
structure Accum where
  flops : Option ℚ
  sumtime_polarqdwh : ℚ
  max_time_polarqdwh : ℚ
  min_time_polarqdwh : ℚ
  info_facto_qw : Option Int

/-- The declarations of lines 170, 147 and 178-179. -/
def Accum.init : Accum :=
  { flops := none
    sumtime_polarqdwh := 0
    max_time_polarqdwh := 0
    min_time_polarqdwh := 100000000000000000000
    info_facto_qw := none }

/-- Lines 238-239: `sumtime_polarqdwh = 0.0; max_time_polarqdwh = 0.0,
min_time_polarqdwh = 1e20;`. -/
def resetTimers (a : Accum) : Accum :=
  { a with
    sumtime_polarqdwh := 0
    max_time_polarqdwh := 0
    min_time_polarqdwh := 100000000000000000000 }

/-- One pass through the body of the iteration loop (lines 322-353), on the
scalar variables.  `my_elapsed` holds each process's `my_elapsed_polarqdwh`
after line 346 and `my_info` each process's `my_info_facto` after the compute
call of line 338. -/
def iteration (my_elapsed : PerProcess ℚ) (my_info : PerProcess Int) (a : Accum) : Accum :=
  let flops : ℚ := 0                                         -- line 326
  let elapsed := allreduceMax my_elapsed                      -- line 347
  let sumtime := a.sumtime_polarqdwh + elapsed                -- line 348
  let max_time := if elapsed ≥ a.max_time_polarqdwh then elapsed else a.max_time_polarqdwh
  let min_time := if elapsed ≤ a.min_time_polarqdwh then elapsed else a.min_time_polarqdwh
  let _info := allreduceMax my_info                           -- line 351
  let info := allreduceMax my_info                            -- line 353
  { flops := some flops
    sumtime_polarqdwh := sumtime
    max_time_polarqdwh := max_time
    min_time_polarqdwh := min_time
    info_facto_qw := some info }

/-- The values printed by lines 392-393 for one size. -/
structure Report where
  N : Int
  flops : Option ℚ
  gflops : Option ℚ
  avg_time : ℚ
  max_time : ℚ
  min_time : ℚ
  info : Option Int

/-- Lines 392-393: the arguments of the two `fprintf` calls, among them
`flops/1e9/min_time_polarqdwh` and `sumtime_polarqdwh/niter`. -/
def report (n niter : Int) (a : Accum) : Report :=
  { N := n
    flops := a.flops
    gflops := a.flops.map (fun flops => flops / 1000000000 / a.min_time_polarqdwh)
    avg_time := a.sumtime_polarqdwh / (niter : ℚ)
    max_time := a.max_time_polarqdwh
    min_time := a.min_time_polarqdwh
    info := a.info_facto_qw }

/-- The scalar side of the body of the size loop for the size `n`: the timers
are reset (lines 238-239), the iteration loop runs (lines 322-387) and the
report is made (lines 388-395).  `prev` holds the variables as the previous
size left them. -/
def reportFor (n niter : Int) (my_elapsed : Nat → PerProcess ℚ)
    (my_info : Nat → PerProcess Int) (prev : Accum) : Report :=
  report n niter
    (forLoop niter (fun iter a => iteration (my_elapsed iter) (my_info iter) a)
      (resetTimers prev))

/-! ## Matrix-generation status (lines 265-274) -/

/-- The test `info != 0` of line 271, which each process makes on the `info`
that its own call of `pdlatms_` returned; when it holds the process prints the
error and leaves `main` with `return EXIT_FAILURE`. -/
def generationFailed (info : Int) : Bool :=
  decide (info ≠ 0)

/-! ## Local buffers and external calls of one size (lines 265-386) -/

/-- The local buffers of `main`. -/
inductive Buf where
  | A | H | C | Acpy | D | Wloc1 | Wloc2
  deriving DecidableEq, Repr

/-- The contents of a local buffer of doubles. -/
abbrev Buffer := List ℚ

/-- The contents of all the local buffers of one process. -/
abbrev Mem := Buf → Buffer

/-- The external routines that `main` calls on its local buffers, with the
buffers (and, for `pdgeqdwh`, the workspace sizes) it passes. -/
inductive Call where
  | pdlatms
  | pdlacpy (src dst : Buf)
  | pdlange (x work : Buf)
  | pdgeqdwh (lWork1 lWork2 : Int)
  | pdlaset (dst : Buf)
  | pdgemm (a b c : Buf)
  deriving DecidableEq, Repr

/-- Modelled from the spec: the external routines are not part of the source
file.  The buffers a call may write are the output and work arguments it is
given: `pdlatms_` generates into `A` and uses `D` and `Wloc1`; `pdlacpy_`
writes its destination; `pdlange_` its work array; `pdgeqdwh` overwrites `A`
and `H` and uses both workspaces; `pdlaset_` and `pdgemm_` write their result
matrix. -/
def Call.writes : Call → List Buf
  | .pdlatms => [.A, .D, .Wloc1]
  | .pdlacpy _ dst => [dst]
  | .pdlange _ work => [work]
  | .pdgeqdwh _ _ => [.A, .H, .Wloc1, .Wloc2]
  | .pdlaset dst => [dst]
  | .pdgemm _ _ c => [c]

/-- The behaviour of the external routines, left arbitrary: what the `k`-th
call leaves in each buffer it may write (as a function of the call and of the
memory it starts on), the `info` that `pdlatms_` returns, and the contents of
the blocks that `malloc` returns at lines 313-314. -/
structure Extern where
  result : Nat → Call → Mem → Buf → Buffer
  latmsInfo : Int
  fresh1 : Buffer
  fresh2 : Buffer

/-- One external call: where it stands in the source, what is called, the
memory before and the memory after. -/
structure Event where
  line : Nat
  call : Call
  before : Mem
  after : Mem

/-- The memory of the process and the external calls made so far, oldest first. -/
structure Run where
  mem : Mem
  events : List Event

/-- Modelled from the spec: the external routines are not part of the source
file.  The memory after a call: the copy primitive `pdlacpy_` copies its source
into its destination, any other routine leaves in the buffers it may write what
`ext` says; the other buffers keep their contents. -/
def afterCall (ext : Extern) (k : Nat) (c : Call) (m : Mem) : Mem :=
  fun b =>
    if b ∈ c.writes then
      match c with
      | .pdlacpy src _ => m src
      | _ => ext.result k c m b
    else m b

/-- Makes the call `c`, at line `line` of the source. -/
def callExt (ext : Extern) (line : Nat) (c : Call) (r : Run) : Run :=
  let after := afterCall ext r.events.length c r.mem
  { mem := after
    events := r.events ++ [{ line := line, call := c, before := r.mem, after := after }] }

/-- An assignment `buf = (double *)calloc(...)` or `buf = (double *)malloc(...)`:
the variable now designates a block with the given contents. -/
def assignBuf (b : Buf) (contents : Buffer) (r : Run) : Run :=
  { r with mem := Function.update r.mem b contents }

/-- The element `buf[0]` of a buffer (lines 308-309). -/
def firstElem (buf : Buffer) : ℚ :=
  buf.headD 0

/-- The external calls of one pass through the body of the iteration loop
(lines 322-386): RestoreCopy, the compute call, and the checks when `check` is
set. -/
def iterationCalls (ext : Extern) (check : Bool) (lWork1 lWork2 : Int) (r : Run) : Run :=
  let r := callExt ext 323 (.pdlacpy .Acpy .A) r
  let r := callExt ext 338 (.pdgeqdwh lWork1 lWork2) r
  if check then
    let r := callExt ext 365 (.pdlaset .C) r
    let r := callExt ext 367 (.pdgemm .A .A .C) r
    let r := callExt ext 373 (.pdlange .C .Wloc1) r
    let r := callExt ext 377 (.pdlacpy .Acpy .C) r
    let r := callExt ext 379 (.pdgemm .A .H .C) r
    callExt ext 385 (.pdlange .C .Wloc1) r
  else
    r

/-- The external calls of the body of the size loop, from the generation of
the matrix (line 265) to the end of the iteration loop (line 387), started on
the memory `m0` that the allocations of lines 230-234 and 264 leave.  `none`
is the `return EXIT_FAILURE` of line 273. -/
def sizeCalls (ext : Extern) (niter : Int) (check : Bool) (m0 : Mem) : Option Run :=
  let r : Run := { mem := m0, events := [] }
  let r := callExt ext 265 .pdlatms r
  if generationFailed ext.latmsInfo then
    none
  else
    let r := callExt ext 275 (.pdlacpy .A .Acpy) r
    let r := callExt ext 278 (.pdlange .A .Wloc1) r
    let r := assignBuf .Wloc1 [0] r                           -- line 295
    let r := assignBuf .Wloc2 [0] r                           -- line 296
    let lWork1 : Int := -1                                    -- line 297
    let lWork2 : Int := -1                                    -- line 298
    let r := callExt ext 300 (.pdgeqdwh lWork1 lWork2) r
    let lWork1 := doubleToInt (firstElem (r.mem .Wloc1))      -- line 308
    let lWork2 := doubleToInt (firstElem (r.mem .Wloc2))      -- line 309
    let r := assignBuf .Wloc1 ext.fresh1 r                    -- line 313
    let r := assignBuf .Wloc2 ext.fresh2 r                    -- line 314
    some (forLoop niter (fun _ r => iterationCalls ext check lWork1 lWork2 r) r)

/-- The calls of `pdgeqdwh` among the events, in order. -/
def decompCalls (events : List Event) : List Event :=
  events.filter (fun e =>
    match e.call with
    | .pdgeqdwh _ _ => true
    | _ => false)

/-- The event leaves the pristine copy alone: the call may not write `Acpy`,
`Acpy` holds `pristine` before and after it, and when the event is the compute
call of line 338 the matrix `A` it is given holds `pristine` too. -/
def KeepsPristine (pristine : Buffer) (e : Event) : Prop :=
  Buf.Acpy ∉ e.call.writes ∧ e.before .Acpy = pristine ∧ e.after .Acpy = pristine ∧
    (e.line = 338 → e.before .A = pristine)

/-- What holds of a run of `sizeCalls` after the query call and `k` passes
through the iteration loop: the events are the generation `gen`, the copy `cpy`
into `Acpy` and events that keep the pristine copy; the calls of `pdgeqdwh`
among these are the query followed by `k` calls made at line 338 with the
workspace sizes `lWork1` and `lWork2`. -/
def SizeInv (pristine : Buffer) (gen cpy query : Event) (lWork1 lWork2 : Int) (k : Nat)
    (r : Run) : Prop :=
  r.mem .Acpy = pristine ∧
    ∃ rest : List Event, r.events = gen :: cpy :: rest ∧
      (∀ e ∈ rest, KeepsPristine pristine e) ∧
      ∃ computes : List Event, decompCalls rest = query :: computes ∧
        computes.length = k ∧
        ∀ c ∈ computes, c.line = 338 ∧ c.call = .pdgeqdwh lWork1 lWork2

/-! ## The binary64 quotient of line 214 -/

theorem truncTowardZero_of_nonneg (y : ℚ) (hy : 0 ≤ y) : truncTowardZero y = ⌊y⌋ := by
  unfold truncTowardZero
  rw [Int.tdiv_eq_ediv (Rat.num_nonneg.2 hy) (Int.ofNat_nonneg _)]
  exact (Rat.floor_def' y).symm

theorem truncTowardZero_neg (y : ℚ) : truncTowardZero (-y) = -truncTowardZero y := by
  unfold truncTowardZero
  rw [Rat.neg_num, Rat.neg_den, Int.neg_tdiv]

/-- Within the range of `int` the conversion is the truncation. -/
theorem doubleToInt_of_range (x : ℚ) (hlo : -2147483648 ≤ truncTowardZero x)
    (hhi : truncTowardZero x ≤ 2147483647) : doubleToInt x = truncTowardZero x := by
  unfold doubleToInt
  rw [if_pos ⟨hlo, hhi⟩]

theorem roundHalfEven_ge (N : Int) (y : ℚ) (h : (N : ℚ) ≤ y) : N ≤ roundHalfEven y := by
  have hf : N ≤ ⌊y⌋ := Int.le_floor.2 h
  unfold roundHalfEven
  split_ifs <;> omega

theorem roundHalfEven_lt (N : Int) (y : ℚ) (h : y < (N : ℚ) - 1 / 2) : roundHalfEven y < N := by
  have hfl : (⌊y⌋ : ℚ) ≤ y := Int.floor_le y
  have hf : ⌊y⌋ < N := by
    have : (⌊y⌋ : ℚ) < (N : ℚ) := by linarith
    exact_mod_cast this
  have hstep : ¬ (y - ⌊y⌋ < 1 / 2) → ⌊y⌋ + 1 < N := by
    intro hd
    push_neg at hd
    have : ((⌊y⌋ + 1 : Int) : ℚ) < (N : ℚ) := by push_cast; linarith
    exact_mod_cast this
  unfold roundHalfEven
  split_ifs with h1 h2 h3
  · exact hf
  · exact hstep h1
  · exact hf
  · exact hstep h1

theorem roundPos53_floor (a b : Int) (ha : 1 ≤ a) (ha53 : a < 2 ^ 53) (hb : 1 ≤ b) :
    ⌊roundPos53 ((a : ℚ) / (b : ℚ))⌋ = a / b := by
  have hbq : (0 : ℚ) < (b : ℚ) := by exact_mod_cast hb
  have haq : (1 : ℚ) ≤ (a : ℚ) := by exact_mod_cast ha
  have ha53q : (a : ℚ) < 2 ^ (53 : ℤ) := by
    have h : (a : ℚ) < ((2 ^ 53 : Int) : ℚ) := by exact_mod_cast ha53
    have h53 : ((2 ^ 53 : Int) : ℚ) = (2 : ℚ) ^ (53 : ℤ) := by norm_num
    rw [h53] at h
    exact h
  set x : ℚ := (a : ℚ) / (b : ℚ) with hx
  have hxpos : 0 < x := div_pos (by linarith) hbq
  set e : ℤ := Int.log 2 x with he
  have hlow : (2 : ℚ) ^ e ≤ x := by
    have := @Int.zpow_log_le_self ℚ _ _ 2 x (by norm_num) hxpos
    simpa using this
  -- the quotient and remainder of the integer division
  have hdm := Int.ediv_add_emod a b
  have hr0 : 0 ≤ a % b := Int.emod_nonneg a (by omega)
  have hrb : a % b < b := Int.emod_lt_of_pos a (by omega)
  have hq0 : 0 ≤ a / b := Int.ediv_nonneg (by omega) (by omega)
  have hxq : x = ((a / b : Int) : ℚ) + ((a % b : Int) : ℚ) / (b : ℚ) := by
    rw [hx]
    field_simp
    have : (a : ℚ) = (b : ℚ) * ((a / b : Int) : ℚ) + ((a % b : Int) : ℚ) := by
      exact_mod_cast hdm.symm
    linarith
  have hrq0 : (0 : ℚ) ≤ ((a % b : Int) : ℚ) := by exact_mod_cast hr0
  have hrqb : ((a % b : Int) : ℚ) + 1 ≤ (b : ℚ) := by exact_mod_cast hrb
  -- the exponent is at most 52
  have hpow_pos : (0 : ℚ) < (2 : ℚ) ^ e := zpow_pos (by norm_num) e
  have hb1 : (1 : ℚ) ≤ (b : ℚ) := by exact_mod_cast hb
  have hxa : x ≤ (a : ℚ) := by
    rw [hx]; exact div_le_self (by linarith) hb1
  have he52 : e < 53 := by
    have : (2 : ℚ) ^ e < (2 : ℚ) ^ (53 : ℤ) := lt_of_le_of_lt hlow (lt_of_le_of_lt hxa ha53q)
    exact (zpow_lt_zpow_iff_right₀ (by norm_num : (1 : ℚ) < 2)).1 this
  -- the scaling factor is a power of two with a natural exponent
  obtain ⟨n, hn⟩ : ∃ n : Nat, (52 - e : ℤ) = (n : ℤ) := ⟨(52 - e).toNat, by omega⟩
  have hT : (2 : ℚ) ^ (52 - e) = ((2 ^ n : Int) : ℚ) := by
    rw [hn, zpow_natCast]; push_cast; rfl
  have hTinv : (2 : ℚ) ^ (e - 52) = (((2 ^ n : Int) : ℚ))⁻¹ := by
    rw [← hT, ← zpow_neg]; congr 1; ring
  have hTpos : (0 : ℚ) < ((2 ^ n : Int) : ℚ) := by rw [← hT]; exact zpow_pos (by norm_num) _
  -- b < 2 * T
  have hb2T : (b : ℚ) < 2 * ((2 ^ n : Int) : ℚ) := by
    have h1 : (b : ℚ) * (2 : ℚ) ^ e ≤ (a : ℚ) := by
      have := mul_le_mul_of_nonneg_left hlow (le_of_lt hbq)
      have hbx : (b : ℚ) * x = (a : ℚ) := by rw [hx]; field_simp
      linarith
    have h2 : (2 : ℚ) ^ e * (2 : ℚ) ^ (52 - e) = (2 : ℚ) ^ (52 : ℤ) := by
      rw [← zpow_add₀ (by norm_num : (2 : ℚ) ≠ 0)]; congr 1; ring
    rw [hT] at h2
    have h3 : (b : ℚ) * (2 : ℚ) ^ (52 : ℤ) ≤ (a : ℚ) * ((2 ^ n : Int) : ℚ) := by
      calc (b : ℚ) * (2 : ℚ) ^ (52 : ℤ) = (b : ℚ) * (2 : ℚ) ^ e * ((2 ^ n : Int) : ℚ) := by
            rw [← h2]; ring
        _ ≤ (a : ℚ) * ((2 ^ n : Int) : ℚ) := mul_le_mul_of_nonneg_right h1 (le_of_lt hTpos)
    have h4 : (a : ℚ) * ((2 ^ n : Int) : ℚ) < (2 : ℚ) ^ (53 : ℤ) * ((2 ^ n : Int) : ℚ) :=
      mul_lt_mul_of_pos_right ha53q hTpos
    have h5 : (2 : ℚ) ^ (53 : ℤ) = 2 * (2 : ℚ) ^ (52 : ℤ) := by norm_num
    have h6 : (0 : ℚ) < (2 : ℚ) ^ (52 : ℤ) := by norm_num
    have h7 : (b : ℚ) * (2 : ℚ) ^ (52 : ℤ)
        < 2 * ((2 ^ n : Int) : ℚ) * (2 : ℚ) ^ (52 : ℤ) := by
      calc (b : ℚ) * (2 : ℚ) ^ (52 : ℤ) ≤ (a : ℚ) * ((2 ^ n : Int) : ℚ) := h3
        _ < (2 : ℚ) ^ (53 : ℤ) * ((2 ^ n : Int) : ℚ) := h4
        _ = 2 * ((2 ^ n : Int) : ℚ) * (2 : ℚ) ^ (52 : ℤ) := by rw [h5]; ring
    exact lt_of_mul_lt_mul_right h7 (le_of_lt h6)
  -- the rounded significand
  set m : Int := roundHalfEven (x * (2 : ℚ) ^ (52 - e)) with hm
  have hmlow : (a / b) * 2 ^ n ≤ m := by
    apply roundHalfEven_ge
    rw [hT]
    push_cast
    have : ((a / b : Int) : ℚ) ≤ x := by
      rw [hxq]
      have : (0 : ℚ) ≤ ((a % b : Int) : ℚ) / (b : ℚ) := div_nonneg hrq0 (le_of_lt hbq)
      linarith
    have hT' : (0 : ℚ) < (2 : ℚ) ^ n := by positivity
    exact mul_le_mul_of_nonneg_right this (le_of_lt hT')
  have hmhigh : m < (a / b + 1) * 2 ^ n := by
    apply roundHalfEven_lt
    rw [hT]
    have hgap : x + 1 / (b : ℚ) ≤ ((a / b : Int) : ℚ) + 1 := by
      rw [hxq]
      have : ((a % b : Int) : ℚ) / (b : ℚ) + 1 / (b : ℚ) ≤ 1 := by
        rw [← add_div, div_le_one hbq]; exact hrqb
      linarith
    have hTb : (1 : ℚ) / 2 < ((2 ^ n : Int) : ℚ) / (b : ℚ) := by
      rw [lt_div_iff₀ hbq]; linarith
    have hmul : (x + 1 / (b : ℚ)) * ((2 ^ n : Int) : ℚ)
        ≤ (((a / b : Int) : ℚ) + 1) * ((2 ^ n : Int) : ℚ) :=
      mul_le_mul_of_nonneg_right hgap (le_of_lt hTpos)
    have hexp : (x + 1 / (b : ℚ)) * ((2 ^ n : Int) : ℚ)
        = x * ((2 ^ n : Int) : ℚ) + ((2 ^ n : Int) : ℚ) / (b : ℚ) := by ring
    push_cast at hmul hexp hTb ⊢
    linarith
  -- the floor of the rounded quotient
  show ⌊(roundHalfEven (x * (2 : ℚ) ^ (52 - e)) : ℚ) * (2 : ℚ) ^ (e - 52)⌋ = a / b
  rw [← hm, hTinv, Int.floor_eq_iff]
  have hmlowq : (((a / b) * 2 ^ n : Int) : ℚ) ≤ (m : ℚ) := by exact_mod_cast hmlow
  have hmhighq : (m : ℚ) + 1 ≤ (((a / b + 1) * 2 ^ n : Int) : ℚ) := by exact_mod_cast hmhigh
  push_cast at hmlowq hmhighq hTpos ⊢
  constructor
  · rw [← div_eq_mul_inv, le_div_iff₀ hTpos]; exact hmlowq
  · rw [← div_eq_mul_inv, div_lt_iff₀ hTpos]; linarith

theorem toDouble_quotient_trunc (a b : Int) (ha : 0 ≤ a) (ha53 : a < 2 ^ 53) (hb : 1 ≤ b) :
    truncTowardZero (toDouble ((a : ℚ) / (b : ℚ))) = a / b := by
  have hbq : (0 : ℚ) < (b : ℚ) := by exact_mod_cast hb
  rcases eq_or_lt_of_le ha with h0 | hpos
  · subst h0
    simp [toDouble, truncTowardZero]
  · have haq : (0 : ℚ) < (a : ℚ) := by exact_mod_cast hpos
    have hx : 0 < (a : ℚ) / (b : ℚ) := div_pos haq hbq
    have hfl := roundPos53_floor a b (by omega) ha53 hb
    have hnn : 0 ≤ roundPos53 ((a : ℚ) / (b : ℚ)) := by
      unfold roundPos53
      apply mul_nonneg
      · have h0 : (0 : Int) ≤ roundHalfEven ((a : ℚ) / (b : ℚ) * 2 ^ (52 - Int.log 2 ((a : ℚ) / (b : ℚ)))) := by
          apply roundHalfEven_ge
          push_cast
          exact mul_nonneg (le_of_lt hx) (le_of_lt (zpow_pos (by norm_num) _))
        exact_mod_cast h0
      · exact le_of_lt (zpow_pos (by norm_num) _)
    rw [toDouble, if_neg (ne_of_gt hx), if_neg (not_lt.2 (le_of_lt hx)),
      truncTowardZero_of_nonneg _ hnn, hfl]

theorem truncTowardZero_toDouble_quotient (size nb : Int) (hlo : -(2 ^ 31) ≤ size)
    (hhi : size < 2 ^ 31) (hnb : 1 ≤ nb) :
    truncTowardZero (toDouble ((size : ℚ) / (nb : ℚ))) = Int.tdiv size nb := by
  rcases le_or_lt 0 size with h0 | hneg
  · rw [toDouble_quotient_trunc size nb h0 (by omega) hnb]
    exact (Int.tdiv_eq_ediv h0 (by omega)).symm
  · have hbq : (0 : ℚ) < (nb : ℚ) := by exact_mod_cast hnb
    have hsq : (size : ℚ) < 0 := by exact_mod_cast hneg
    have hx : (size : ℚ) / (nb : ℚ) < 0 := div_neg_of_neg_of_pos hsq hbq
    have hnegx : -((size : ℚ) / (nb : ℚ)) = ((-size : Int) : ℚ) / (nb : ℚ) := by
      push_cast; ring
    have hpos : 0 < -size := by omega
    have hxq : 0 < ((-size : Int) : ℚ) / (nb : ℚ) := by rw [← hnegx]; linarith
    have h1 := toDouble_quotient_trunc (-size) nb (by omega) (by omega) hnb
    rw [toDouble, if_neg (ne_of_gt hxq), if_neg (not_lt.2 (le_of_lt hxq))] at h1
    rw [toDouble, if_neg (ne_of_lt hx), if_pos hx, hnegx, truncTowardZero_neg, h1]
    have h2 : Int.tdiv size nb = -Int.tdiv (-size) nb := by
      rw [Int.neg_tdiv, neg_neg]
    rw [h2, Int.tdiv_eq_ediv (by omega) (by omega)]

/-- For operands in the range of `int` and `nb ≥ 1`, the truncated quotient is
an `int`. -/
theorem tdiv_range (size nb : Int) (hlo : -(2 ^ 31) ≤ size) (hhi : size < 2 ^ 31)
    (hnb : 1 ≤ nb) : -2147483648 ≤ Int.tdiv size nb ∧ Int.tdiv size nb ≤ 2147483647 := by
  rcases le_or_lt 0 size with h0 | hneg
  · rw [Int.tdiv_eq_ediv h0 (by omega)]
    have h1 : 0 ≤ size / nb := Int.ediv_nonneg h0 (by omega)
    have h2 : size / nb ≤ size := Int.ediv_le_self nb h0
    omega
  · have h2 : Int.tdiv size nb = -Int.tdiv (-size) nb := by
      rw [Int.neg_tdiv, neg_neg]
    rw [h2, Int.tdiv_eq_ediv (by omega) (by omega)]
    have h1 : 0 ≤ -size / nb := Int.ediv_nonneg (by omega) (by omega)
    have h3 : -size / nb ≤ -size := Int.ediv_le_self nb (by omega)
    omega

theorem sizeOverBlock_eq_double (size nb : Int) (hlo : -(2 ^ 31) ≤ size) (hhi : size < 2 ^ 31)
    (hnb : 1 ≤ nb) (_hnb31 : nb < 2 ^ 31) :
    sizeOverBlockDouble size nb = sizeOverBlock size nb := by
  unfold sizeOverBlockDouble sizeOverBlock
  have ht := truncTowardZero_toDouble_quotient size nb hlo hhi hnb
  have hr := tdiv_range size nb hlo hhi hnb
  rw [doubleToInt_of_range _ (by rw [ht]; exact hr.1) (by rw [ht]; exact hr.2), ht]

/-! ## Lemmas on GuardSize -/

theorem guardSize_run (step nb nprow npcol : Int) :
    ∀ (k : Nat) (size : Int),
      (∀ j : Nat, j < k → tooSmall (size + j * step) nb nprow npcol = true) →
      tooSmall (size + k * step) nb nprow npcol = false →
      ∀ f : Nat, k < f → guardSize f size step nb nprow npcol = some (size + k * step) := by
  intro k
  induction k with
  | zero =>
    intro size _ hk f hf
    obtain ⟨f, rfl⟩ : ∃ g, f = g + 1 := ⟨f - 1, by omega⟩
    have hk0 : tooSmall size nb nprow npcol = false := by simpa using hk
    simp [guardSize, hk0]
  | succ k ih =>
    intro size hlt hk f hf
    obtain ⟨f, rfl⟩ : ∃ g, f = g + 1 := ⟨f - 1, by omega⟩
    have h0 : tooSmall size nb nprow npcol = true := by simpa using hlt 0 (by omega)
    have hrec := ih (size + step)
      (fun j hj => by
        have := hlt (j + 1) (by omega)
        have e : size + step + (j : Int) * step = size + ((j + 1 : Nat) : Int) * step := by
          push_cast; ring
        rw [e]; exact this)
      (by
        have e : size + step + (k : Int) * step = size + ((k + 1 : Nat) : Int) * step := by
          push_cast; ring
        rw [e]; exact hk)
      f (by omega)
    have e : size + step + (k : Int) * step = size + ((k + 1 : Nat) : Int) * step := by
      push_cast; ring
    simp [guardSize, h0, hrec, e]

theorem guardSize_some (step nb nprow npcol : Int) :
    ∀ (f : Nat) (size r : Int), guardSize f size step nb nprow npcol = some r →
      ∃ k : Nat, k < f ∧ r = size + k * step ∧
        (∀ j : Nat, j < k → tooSmall (size + j * step) nb nprow npcol = true) ∧
        tooSmall r nb nprow npcol = false := by
  intro f
  induction f with
  | zero => intro size r h; simp [guardSize] at h
  | succ f ih =>
    intro size r h
    by_cases h0 : tooSmall size nb nprow npcol = true
    · simp only [guardSize, h0, if_true] at h
      obtain ⟨k, hk, hr, hlt, hlast⟩ := ih _ _ h
      refine ⟨k + 1, by omega, ?_, ?_, hlast⟩
      · rw [hr]; push_cast; ring
      · intro j hj
        rcases Nat.eq_zero_or_pos j with rfl | hpos
        · simpa using h0
        · obtain ⟨i, rfl⟩ : ∃ i, j = i + 1 := ⟨j - 1, by omega⟩
          have := hlt i (by omega)
          have e : size + step + (i : Int) * step = size + ((i + 1 : Nat) : Int) * step := by
            push_cast; ring
          rw [← e]; exact this
    · have h0f : tooSmall size nb nprow npcol = false := by simpa using h0
      simp only [guardSize, h0f] at h
      simp only [Bool.false_eq_true, if_false, Option.some.injEq] at h
      subst h
      exact ⟨0, by omega, by simp, by intro j hj; omega, h0f⟩

/-- From some point on, every size of the progression passes the guard. -/
theorem tooSmall_eventually (size step nb nprow npcol : Int) (hstep : 1 ≤ step) (hnb : 1 ≤ nb) :
    ∃ k : Nat, tooSmall (size + k * step) nb nprow npcol = false := by
  refine ⟨(max (max nprow npcol * nb - size) (-size)).toNat, ?_⟩
  set K : Nat := (max (max nprow npcol * nb - size) (-size)).toNat with hK
  have h1 : max nprow npcol * nb - size ≤ (K : Int) := by
    rw [hK]; exact le_trans (le_max_left _ _) (Int.self_le_toNat _)
  have h2 : -size ≤ (K : Int) := by
    rw [hK]; exact le_trans (le_max_right _ _) (Int.self_le_toNat _)
  have hKs : (K : Int) ≤ K * step := by
    have : (0 : Int) ≤ K := Int.ofNat_nonneg K
    nlinarith
  have hx0 : 0 ≤ size + K * step := by linarith
  have hxm : max nprow npcol * nb ≤ size + K * step := by linarith
  have hdiv : max nprow npcol ≤ (size + K * step) / nb :=
    (Int.le_ediv_iff_mul_le (by omega)).2 hxm
  simp only [tooSmall, sizeOverBlock, gridMax, decide_eq_false_iff_not, not_lt]
  rw [Int.tdiv_eq_ediv hx0 (by omega)]
  exact hdiv

/-- GuardSize terminates for any current size when `step ≥ 1` and `nb ≥ 1`. -/
theorem guardSize_terminates (size step nb nprow npcol : Int) (hstep : 1 ≤ step) (hnb : 1 ≤ nb) :
    ∃ k : Nat, (∀ j : Nat, j < k → tooSmall (size + j * step) nb nprow npcol = true) ∧
      tooSmall (size + k * step) nb nprow npcol = false ∧
      ∀ f : Nat, k < f → guardSize f size step nb nprow npcol = some (size + k * step) := by
  classical
  have hex := tooSmall_eventually size step nb nprow npcol hstep hnb
  refine ⟨Nat.find hex, ?_, Nat.find_spec hex, ?_⟩
  · intro j hj
    have := Nat.find_min hex hj
    simpa using this
  · intro f hf
    refine guardSize_run step nb nprow npcol _ size ?_ (Nat.find_spec hex) f hf
    intro j hj
    have := Nat.find_min hex hj
    simpa using this

theorem guardSize_mono (step nb nprow npcol : Int) (f g : Nat) (size r : Int)
    (h : guardSize f size step nb nprow npcol = some r) (hfg : f ≤ g) :
    guardSize g size step nb nprow npcol = some r := by
  obtain ⟨k, hk, hr, hlt, hlast⟩ := guardSize_some step nb nprow npcol f size r h
  rw [hr]
  exact guardSize_run step nb nprow npcol k size hlt (hr ▸ hlast) g (by omega)

/-- C1. GuardSize (the inner `while` of lines 214-217): for a current size
`size ≥ 0`, `step ≥ 1`, `nb ≥ 1` and a grid with `nprow, npcol ≥ 1`, the loop
terminates (any sufficient fuel gives the result) and leaves `size + k * step`
for the least `k ≥ 0` with `floor ((size + k * step) / nb) ≥ max nprow npcol`;
whenever it returns, what it returns is that size, for which the floor of
`size / nb` is not below `max nprow npcol`. -/
theorem guardSize_least (size step nb nprow npcol : Int)
    (hsize : 0 ≤ size) (hstep : 1 ≤ step) (hnb : 1 ≤ nb)
    (hprow : 1 ≤ nprow) (hpcol : 1 ≤ npcol) :
    ∃ k : Nat,
      (∃ fuel : Nat, ∀ f : Nat, fuel ≤ f →
        guardSize f size step nb nprow npcol = some (size + k * step)) ∧
      max nprow npcol ≤ (size + k * step) / nb ∧
      (∀ j : Nat, j < k → (size + j * step) / nb < max nprow npcol) ∧
      (∀ (f : Nat) (r : Int), guardSize f size step nb nprow npcol = some r →
        r = size + k * step ∧ ¬ (r / nb < max nprow npcol)) := by
  have _hgrid : 1 ≤ nprow ∧ 1 ≤ npcol := ⟨hprow, hpcol⟩
  have hfloor : ∀ j : Nat, sizeOverBlock (size + j * step) nb = (size + j * step) / nb := by
    intro j
    have hj : (0 : Int) ≤ (j : Int) * step :=
      mul_nonneg (Int.ofNat_nonneg j) (by omega)
    exact Int.tdiv_eq_ediv (by omega) (by omega)
  obtain ⟨k, hlt, hk, hrun⟩ := guardSize_terminates size step nb nprow npcol hstep hnb
  have hkdiv : max nprow npcol ≤ (size + k * step) / nb := by
    have := hk
    simp only [tooSmall, gridMax, decide_eq_false_iff_not, not_lt, hfloor] at this
    exact this
  refine ⟨k, ⟨k + 1, fun f hf => hrun f (by omega)⟩, hkdiv, ?_, ?_⟩
  · intro j hj
    have := hlt j hj
    simp only [tooSmall, gridMax, decide_eq_true_eq, hfloor] at this
    exact this
  · intro f r hr
    have h1 := guardSize_mono step nb nprow npcol f (max f (k + 1)) size r hr (le_max_left _ _)
    have h2 := hrun (max f (k + 1)) (by have := le_max_right f (k + 1); omega)
    rw [h2] at h1
    have hrk : r = size + k * step := (Option.some.inj h1).symm
    subst hrk
    exact ⟨rfl, not_lt.mpr hkdiv⟩

/-- Witness for C1: a current size 100 with step 1, block size 64 and a 2 x 2 grid. -/
theorem guardSize_least_witness :
    ∃ k : Nat,
      (∃ fuel : Nat, ∀ f : Nat, fuel ≤ f →
        guardSize f 100 1 64 2 2 = some (100 + k * 1)) ∧
      max (2 : Int) 2 ≤ (100 + k * 1) / 64 ∧
      (∀ j : Nat, j < k → ((100 : Int) + j * 1) / 64 < max 2 2) ∧
      (∀ (f : Nat) (r : Int), guardSize f 100 1 64 2 2 = some r →
        r = 100 + k * 1 ∧ ¬ (r / 64 < max 2 2)) :=
  guardSize_least 100 1 64 2 2 (by decide) (by decide) (by decide) (by decide) (by decide)

/-- C8, as stated, fails: for the requested size 100 with the step 1 that `-n`
sets, block size 64 and a 2 x 2 grid, GuardSize does not leave the size 256. -/
theorem guardSize_scenario_not_256 :
    ¬ (∃ fuel : Nat, guardSize fuel 100 1 64 2 2 = some 256) := by
  rintro ⟨fuel, h⟩
  have h1 := guardSize_mono 1 64 2 2 fuel (max fuel 29) 100 256 h (le_max_left _ _)
  have h2 : guardSize 29 100 1 64 2 2 = some 128 := by decide
  have h3 := guardSize_mono 1 64 2 2 29 (max fuel 29) 100 128 h2 (le_max_right _ _)
  rw [h3] at h1
  exact absurd (Option.some.inj h1) (by decide)

/-- C8, amended: for the requested size 100 with the step 1 that `-n` sets,
block size 64 and a 2 x 2 grid, GuardSize terminates and advances the size to
128, the first size from 100 on with `floor (size / 64) ≥ 2`. -/
theorem guardSize_scenario_128 :
    (∀ fuel : Nat, 29 ≤ fuel → guardSize fuel 100 1 64 2 2 = some 128) ∧
    (∀ (fuel : Nat) (r : Int), guardSize fuel 100 1 64 2 2 = some r → r = 128) ∧
    sizeOverBlock 100 64 = 1 ∧ sizeOverBlock 127 64 = 1 ∧ sizeOverBlock 128 64 = 2 := by
  have h2 : guardSize 29 100 1 64 2 2 = some 128 := by decide
  refine ⟨fun fuel hf => guardSize_mono 1 64 2 2 29 fuel 100 128 h2 hf, ?_, by decide, by decide,
    by decide⟩
  intro fuel r hr
  have h1 := guardSize_mono 1 64 2 2 fuel (max fuel 29) 100 r hr (le_max_left _ _)
  have h3 := guardSize_mono 1 64 2 2 29 (max fuel 29) 100 128 h2 (le_max_right _ _)
  rw [h3] at h1
  exact (Option.some.inj h1).symm

/-! ## The size sweep -/

theorem wrapInt_of_range (x : Int) (hlo : -2147483648 ≤ x) (hhi : x ≤ 2147483647) :
    wrapInt x = x := by
  unfold wrapInt
  omega

/-- A size that fails the guard lies below `max (max nprow npcol * nb) 0`. -/
theorem tooSmall_lt (size nb nprow npcol : Int) (hnb : 1 ≤ nb)
    (h : tooSmall size nb nprow npcol = true) :
    size < max (gridMax nprow npcol * nb) 0 := by
  by_contra hge
  push_neg at hge
  have h0 : 0 ≤ size := le_trans (le_max_right _ _) hge
  have hm : gridMax nprow npcol * nb ≤ size := le_trans (le_max_left _ _) hge
  have hdiv : gridMax nprow npcol ≤ size / nb := (Int.le_ediv_iff_mul_le (by omega)).2 hm
  simp only [tooSmall, sizeOverBlock, decide_eq_true_eq] at h
  rw [Int.tdiv_eq_ediv h0 (by omega)] at h
  omega

/-- As long as `size += step` stays in the range of `int`, the loop on the
32-bit `int` does what the loop on exact integers does. -/
theorem guardSizeInt_of_guardSize (step nb nprow npcol : Int) (hstep : 0 ≤ step) (hnb : 1 ≤ nb)
    (hB : max (gridMax nprow npcol * nb) 0 + step ≤ 2147483648) :
    ∀ (f : Nat) (size n : Int), -2147483648 ≤ size →
      guardSize f size step nb nprow npcol = some n →
      guardSizeInt f size step nb nprow npcol = some n := by
  intro f
  induction f with
  | zero => intro size n _ h; simp [guardSize] at h
  | succ f ih =>
    intro size n hlo h
    by_cases h0 : tooSmall size nb nprow npcol = true
    · have hlt := tooSmall_lt size nb nprow npcol hnb h0
      simp only [guardSize, h0, if_true] at h
      simp only [guardSizeInt, h0, if_true]
      rw [wrapInt_of_range (size + step) (by omega) (by omega)]
      exact ih (size + step) n (by omega) h
    · have h0f : tooSmall size nb nprow npcol = false := by simpa using h0
      simp only [guardSize, h0f] at h
      simp only [guardSizeInt, h0f]
      exact h

theorem sweep_spec (stop step nb nprow npcol : Int) (hstep : 1 ≤ step) (hnb : 1 ≤ nb)
    (hstop : stop + step ≤ 2147483647)
    (hgrid : max (gridMax nprow npcol * nb) 0 + 2 * step ≤ 2147483648) :
    ∀ (m : Nat) (size : Int), (stop + 1 - size).toNat ≤ m → -2147483648 ≤ size →
      ∃ (fuel : Nat) (l : List Int),
        (∀ f : Nat, fuel ≤ f → sweep f size stop step nb nprow npcol = some l) ∧
        (l ≠ [] → size ≤ stop) ∧
        (∀ n ∈ l, ∃ s0 : Int, size ≤ s0 ∧ s0 ≤ stop ∧ GuardResult step nb nprow npcol s0 n) ∧
        (∀ n ∈ l.dropLast, n ≤ stop) := by
  have hdone : ∀ size : Int, ¬ size ≤ stop →
      ∃ (fuel : Nat) (l : List Int),
        (∀ f : Nat, fuel ≤ f → sweep f size stop step nb nprow npcol = some l) ∧
        (l ≠ [] → size ≤ stop) ∧
        (∀ n ∈ l, ∃ s0 : Int, size ≤ s0 ∧ s0 ≤ stop ∧ GuardResult step nb nprow npcol s0 n) ∧
        (∀ n ∈ l.dropLast, n ≤ stop) := by
    intro size hgt
    refine ⟨1, [], ?_, by simp, by simp, by simp⟩
    intro f hf
    obtain ⟨f, rfl⟩ : ∃ g, f = g + 1 := ⟨f - 1, by omega⟩
    simp [sweep, hgt]
  intro m
  induction m with
  | zero =>
    intro size hm _
    exact hdone size (by omega)
  | succ m ih =>
    intro size hm hlo
    by_cases hle : size ≤ stop
    · obtain ⟨k, hlt, hk, hrun⟩ := guardSize_terminates size step nb nprow npcol hstep hnb
      have hk0 : (0 : Int) ≤ (k : Int) * step := mul_nonneg (Int.ofNat_nonneg k) (by omega)
      -- the next value of `size` is computed without overflow
      have hhi : size + k * step + step ≤ 2147483647 := by
        rcases Nat.eq_zero_or_pos k with hk' | hk'
        · subst hk'
          simp only [Nat.cast_zero, zero_mul, add_zero]
          omega
        · obtain ⟨i, rfl⟩ : ∃ i, k = i + 1 := ⟨k - 1, by omega⟩
          have hprev := tooSmall_lt _ nb nprow npcol hnb (hlt i (by omega))
          have e : size + ((i + 1 : Nat) : Int) * step = size + (i : Int) * step + step := by
            push_cast; ring
          rw [e]
          omega
      have hwrap : wrapInt (size + k * step + step) = size + k * step + step :=
        wrapInt_of_range _ (by omega) hhi
      obtain ⟨fuel, l, hsw, hne, hmem, hdrop⟩ :=
        ih (size + k * step + step) (by omega) (by omega)
      refine ⟨max (k + 1) fuel + 1, (size + k * step) :: l, ?_, fun _ => hle, ?_, ?_⟩
      · intro f hf
        obtain ⟨f, rfl⟩ : ∃ g, f = g + 1 := ⟨f - 1, by omega⟩
        have hf1 : k < f := by have := le_max_left (k + 1) fuel; omega
        have hf2 : fuel ≤ f := by have := le_max_right (k + 1) fuel; omega
        have hg := guardSizeInt_of_guardSize step nb nprow npcol (by omega) hnb (by omega)
          f size _ hlo (hrun f hf1)
        simp [sweep, hle, hg, hwrap, hsw f hf2]
      · intro n hn
        rcases List.mem_cons.1 hn with rfl | hn
        · exact ⟨size, le_refl _, hle, k, rfl, hlt, hk⟩
        · obtain ⟨s0, h1, h2, h3⟩ := hmem n hn
          exact ⟨s0, by omega, h2, h3⟩
      · intro n hn
        rcases l with _ | ⟨x, xs⟩
        · simp at hn
        · have hx : size + k * step + step ≤ stop := hne (by simp)
          rw [List.dropLast_cons₂] at hn
          rcases List.mem_cons.1 hn with rfl | hn
          · omega
          · exact hdrop n hn
    · exact hdone size hle

/-- C10, as stated, fails: with `start = stop = 100`, `step = 1`, block size 64
and a 2 x 2 grid (the run `-n 100 -b 64 -p 2 -q 2`), the sweep terminates having
processed the single size 128, which does not lie in `start..stop`. -/
theorem sweep_exceeds_stop :
    ¬ (∀ (fuel : Nat) (l : List Int), sweep fuel 100 100 1 64 2 2 = some l →
        ∀ n ∈ l, (100 : Int) ≤ n ∧ n ≤ 100) := by
  intro h
  have hs : sweep 31 100 100 1 64 2 2 = some [128] := by decide
  have := h 31 [128] hs 128 (by simp)
  exact absurd this.2 (by decide)

/-- C10, amended: for every `start`, `stop`, `step ≥ 1`, `nb ≥ 1` and grid shape
for which no `int` overflow occurs (`start ≥ INT_MIN`, `stop + step ≤ INT_MAX`
and `max (max nprow npcol * nb) 0 + 2 * step ≤ INT_MAX + 1`), the sweep is done
once the loop test finds a size greater than `stop`, and every size it
processes is the size GuardSize leaves when started on a size `s0` of the range
`start..stop`: the processed size is at least `s0 ≥ start` and passes the guard.
The loop test comes before GuardSize, so a size that GuardSize has skipped
forward past `stop` is still processed; it is then the last one. -/
theorem sweep_sizes (start stop step nb nprow npcol : Int) (hstep : 1 ≤ step) (hnb : 1 ≤ nb)
    (hstart : -2147483648 ≤ start) (hstop : stop + step ≤ 2147483647)
    (hgrid : max (max nprow npcol * nb) 0 + 2 * step ≤ 2147483648) :
    ∃ (fuel : Nat) (l : List Int),
      (∀ f : Nat, fuel ≤ f → sweep f start stop step nb nprow npcol = some l) ∧
      (∀ n ∈ l, ∃ s0 : Int, start ≤ s0 ∧ s0 ≤ stop ∧ s0 ≤ n ∧
        GuardResult step nb nprow npcol s0 n) ∧
      (∀ n ∈ l.dropLast, n ≤ stop) := by
  obtain ⟨fuel, l, hsw, _, hmem, hdrop⟩ :=
    sweep_spec stop step nb nprow npcol hstep hnb hstop hgrid (stop + 1 - start).toNat start
      (le_refl _) hstart
  refine ⟨fuel, l, hsw, ?_, hdrop⟩
  intro n hn
  obtain ⟨s0, h1, h2, k, hk, hlt, hlast⟩ := hmem n hn
  have hk0 : (0 : Int) ≤ (k : Int) * step := mul_nonneg (Int.ofNat_nonneg k) (by omega)
  exact ⟨s0, h1, h2, by omega, k, hk, hlt, hlast⟩

/-- Witness for the amended C10: the sweep `100:300:100` with block size 64 on a
2 x 2 grid. -/
theorem sweep_sizes_witness :
    ∃ (fuel : Nat) (l : List Int),
      (∀ f : Nat, fuel ≤ f → sweep f 100 300 100 64 2 2 = some l) ∧
      (∀ n ∈ l, ∃ s0 : Int, 100 ≤ s0 ∧ s0 ≤ 300 ∧ s0 ≤ n ∧ GuardResult 100 64 2 2 s0 n) ∧
      (∀ n ∈ l.dropLast, n ≤ 300) :=
  sweep_sizes 100 300 100 64 2 2 (by decide) (by decide) (by decide) (by decide) (by decide)

/-- What an `int` overflow does to the sweep, and why the statement above sets
it aside: on the sweep `128:256:2147483647` with block size 64 on a 1 x 1 grid,
after the size 128 the `size += step` of line 213 wraps around to -2147483521,
which passes the loop test, and GuardSize then leaves 126, a size below
`start`. -/
theorem guardSizeInt_after_wrap :
    wrapInt (128 + 2147483647) = -2147483521 ∧ (-2147483521 : Int) ≤ 256 ∧
      guardSizeInt 2 (-2147483521) 2147483647 64 1 1 = some 126 := by
  decide

/-! ## Block-cyclic extents -/

theorem sum_chunkSize (global_dim block_size : Nat) :
    ∀ m : Nat, ∑ c in Finset.range m, chunkSize global_dim block_size c
      = min global_dim (m * block_size) := by
  intro m
  induction m with
  | zero => simp
  | succ m ih =>
    rw [Finset.sum_range_succ, ih]
    simp only [chunkSize, Nat.succ_mul]
    omega

theorem numChunks_mul_ge (global_dim block_size : Nat) (hb : 1 ≤ block_size) :
    global_dim ≤ numChunks global_dim block_size * block_size := by
  unfold numChunks
  have h := Nat.div_add_mod (global_dim + block_size - 1) block_size
  have hlt := Nat.mod_lt (global_dim + block_size - 1) (show 0 < block_size by omega)
  have hc : block_size * ((global_dim + block_size - 1) / block_size)
      = (global_dim + block_size - 1) / block_size * block_size := Nat.mul_comm _ _
  omega

/-- C2. The block-cyclic rule: for `global_dim ≥ 0`, `block_size ≥ 1` and
`proc_count ≥ 1`, the local extents of the process coordinates
`0, ..., proc_count - 1` of an axis add up to `global_dim` exactly. -/
theorem local_extent_sum (global_dim block_size proc_count : Nat)
    (hb : 1 ≤ block_size) (hp : 1 ≤ proc_count) :
    ∑ p in Finset.range proc_count, local_extent global_dim block_size p proc_count
      = global_dim := by
  unfold local_extent
  have hmaps : ∀ c ∈ Finset.range (numChunks global_dim block_size),
      chunkOwner c proc_count ∈ Finset.range proc_count :=
    fun c _ => Finset.mem_range.2 (Nat.mod_lt c (show 0 < proc_count by omega))
  rw [Finset.sum_fiberwise_of_maps_to hmaps, sum_chunkSize]
  exact Nat.min_eq_left (numChunks_mul_ge global_dim block_size hb)

/-- Witness for C2: 100 indices in blocks of 64 over 2 processes (64 + 36). -/
theorem local_extent_sum_witness :
    ∑ p in Finset.range 2, local_extent 100 64 p 2 = 100 :=
  local_extent_sum 100 64 2 (by decide) (by decide)

/-! ## The counted loop -/

theorem forLoop_nonpos {σ : Type} (niter : Int) (body : Nat → σ → σ) (s : σ) (h : niter ≤ 0) :
    forLoop niter body s = s := by
  have h0 : niter.toNat = 0 := Int.toNat_eq_zero.2 h
  simp [forLoop, h0]

theorem forLoop_succ {σ : Type} (k : Nat) (body : Nat → σ → σ) (s : σ) :
    forLoop ((k : Int) + 1) body s = body k (forLoop (k : Int) body s) := by
  have h1 : ((k : Int) + 1).toNat = k + 1 := by omega
  have h2 : (k : Int).toNat = k := by omega
  simp [forLoop, h1, h2, List.range_succ, List.foldl_append]

/-! ## Timers -/

/-- After `k + 1` iterations from freshly reset timers, the sum of the elapsed
times lies between `k + 1` times the minimum and `k + 1` times the maximum. -/
theorem timers_bracket_sum (my_elapsed : Nat → PerProcess ℚ) (my_info : Nat → PerProcess Int)
    (prev : Accum) :
    ∀ k : Nat,
      ((k : ℚ) + 1) *
          (forLoop ((k : Int) + 1) (fun iter a => iteration (my_elapsed iter) (my_info iter) a)
            (resetTimers prev)).min_time_polarqdwh
        ≤ (forLoop ((k : Int) + 1) (fun iter a => iteration (my_elapsed iter) (my_info iter) a)
            (resetTimers prev)).sumtime_polarqdwh ∧
      (forLoop ((k : Int) + 1) (fun iter a => iteration (my_elapsed iter) (my_info iter) a)
            (resetTimers prev)).sumtime_polarqdwh
        ≤ ((k : ℚ) + 1) *
          (forLoop ((k : Int) + 1) (fun iter a => iteration (my_elapsed iter) (my_info iter) a)
            (resetTimers prev)).max_time_polarqdwh := by
  intro k
  induction k with
  | zero =>
    rw [forLoop_succ 0]
    rw [forLoop_nonpos _ _ _ (by simp)]
    simp only [iteration, resetTimers]
    constructor
    · split_ifs with h
      · simp
      · push_neg at h
        simp only [Nat.cast_zero, zero_add, one_mul]
        linarith
    · split_ifs with h
      · simp
      · push_neg at h
        simp only [Nat.cast_zero, zero_add, one_mul, mul_zero]
        linarith
  | succ k ih =>
    rw [forLoop_succ (k + 1)]
    have hk : ((k + 1 : Nat) : Int) = (k : Int) + 1 := by push_cast; ring
    rw [hk]
    obtain ⟨ihmin, ihmax⟩ := ih
    set a := forLoop ((k : Int) + 1)
      (fun iter a => iteration (my_elapsed iter) (my_info iter) a) (resetTimers prev) with ha
    have hkpos : (0 : ℚ) ≤ (k : ℚ) + 1 := by positivity
    simp only [iteration]
    push_cast
    constructor
    · split_ifs with h
      · nlinarith
      · push_neg at h
        nlinarith
    · split_ifs with h
      · nlinarith
      · push_neg at h
        nlinarith

/-- C3, as stated, fails: with `niter = 0` the iteration loop does not run and
the report shows the sentinels `min = 1e20` and `max = 0`, so that `max < min`
and no average lies between them; in particular the reported `sumtime / niter`
does not. -/
theorem timing_summary_zero_iterations :
    ¬ ((reportFor 5120 0 (fun _ => ⟨1, []⟩) (fun _ => ⟨0, []⟩) Accum.init).min_time
          ≤ (reportFor 5120 0 (fun _ => ⟨1, []⟩) (fun _ => ⟨0, []⟩) Accum.init).avg_time ∧
        (reportFor 5120 0 (fun _ => ⟨1, []⟩) (fun _ => ⟨0, []⟩) Accum.init).avg_time
          ≤ (reportFor 5120 0 (fun _ => ⟨1, []⟩) (fun _ => ⟨0, []⟩) Accum.init).max_time) ∧
      (reportFor 5120 0 (fun _ => ⟨1, []⟩) (fun _ => ⟨0, []⟩) Accum.init).max_time
        < (reportFor 5120 0 (fun _ => ⟨1, []⟩) (fun _ => ⟨0, []⟩) Accum.init).min_time := by
  rw [reportFor, forLoop_nonpos _ _ _ (le_refl _)]
  simp only [report, resetTimers, Accum.init]
  norm_num

/-- C3, amended: for every iteration count `niter ≥ 1` and every sequence of
per-iteration elapsed times, the reported values satisfy
`min ≤ average ≤ max`. -/
theorem timing_summary_ordered (n niter : Int) (my_elapsed : Nat → PerProcess ℚ)
    (my_info : Nat → PerProcess Int) (prev : Accum) (hniter : 1 ≤ niter) :
    (reportFor n niter my_elapsed my_info prev).min_time
        ≤ (reportFor n niter my_elapsed my_info prev).avg_time ∧
      (reportFor n niter my_elapsed my_info prev).avg_time
        ≤ (reportFor n niter my_elapsed my_info prev).max_time := by
  obtain ⟨k, rfl⟩ : ∃ k : Nat, niter = (k : Int) + 1 := ⟨(niter - 1).toNat, by omega⟩
  obtain ⟨hmin, hmax⟩ := timers_bracket_sum my_elapsed my_info prev k
  have hpos : (0 : ℚ) < (k : ℚ) + 1 := by positivity
  simp only [reportFor, report]
  push_cast
  constructor
  · rw [le_div_iff₀ hpos]
    linarith
  · rw [div_le_iff₀ hpos]
    linarith

/-- Witness for the amended C3: three iterations on a 2-process grid. -/
theorem timing_summary_ordered_witness :
    (reportFor 5120 3 (fun iter => ⟨(iter : ℚ) + 1, [2]⟩) (fun _ => ⟨0, [0]⟩) Accum.init).min_time
        ≤ (reportFor 5120 3 (fun iter => ⟨(iter : ℚ) + 1, [2]⟩) (fun _ => ⟨0, [0]⟩)
            Accum.init).avg_time ∧
      (reportFor 5120 3 (fun iter => ⟨(iter : ℚ) + 1, [2]⟩) (fun _ => ⟨0, [0]⟩)
            Accum.init).avg_time
        ≤ (reportFor 5120 3 (fun iter => ⟨(iter : ℚ) + 1, [2]⟩) (fun _ => ⟨0, [0]⟩)
            Accum.init).max_time :=
  timing_summary_ordered 5120 3 _ _ Accum.init (by decide)

/-! ## Status aggregation -/

theorem foldl_max_ge {α : Type} [LinearOrder α] :
    ∀ (l : List α) (x : α), x ≤ l.foldl max x ∧ ∀ y ∈ l, y ≤ l.foldl max x := by
  intro l
  induction l with
  | nil => intro x; simp
  | cons z zs ih =>
    intro x
    obtain ⟨h1, h2⟩ := ih (max x z)
    refine ⟨le_trans (le_max_left x z) h1, ?_⟩
    intro y hy
    rcases List.mem_cons.1 hy with rfl | hy
    · exact le_trans (le_max_right x y) h1
    · exact h2 y hy

theorem foldl_max_mem {α : Type} [LinearOrder α] :
    ∀ (l : List α) (x : α), l.foldl max x = x ∨ l.foldl max x ∈ l := by
  intro l
  induction l with
  | nil => intro x; simp
  | cons z zs ih =>
    intro x
    rcases ih (max x z) with h | h
    · rcases max_choice x z with hx | hz
      · left; simpa [hx] using h
      · right
        rw [List.foldl_cons, h, hz]
        exact List.mem_cons_self _ _
    · right; exact List.mem_cons_of_mem _ h

/-- The reduction returns an upper bound of all the contributions. -/
theorem allreduceMax_ge {α : Type} [LinearOrder α] (v : PerProcess α) :
    ∀ x ∈ v.toList, x ≤ allreduceMax v := by
  intro x hx
  rcases List.mem_cons.1 hx with rfl | hx
  · exact (foldl_max_ge v.others v.root).1
  · exact (foldl_max_ge v.others v.root).2 x hx

/-- The reduction returns one of the contributions. -/
theorem allreduceMax_mem {α : Type} [LinearOrder α] (v : PerProcess α) :
    allreduceMax v ∈ v.toList := by
  rcases foldl_max_mem v.others v.root with h | h
  · exact List.mem_cons.2 (Or.inl h)
  · exact List.mem_cons.2 (Or.inr h)

/-- C4, as stated, fails: on a 2-process grid where rank 0 returns status 0 and
rank 1 the nonzero status -1, the aggregated status of the iteration is 0. -/
theorem status_masked_by_max :
    ¬ ((∃ x ∈ (PerProcess.mk (0 : Int) [-1]).toList, x ≠ 0) →
        (iteration ⟨1, [1]⟩ ⟨0, [-1]⟩ Accum.init).info_facto_qw ≠ some 0) := by
  intro h
  exact h ⟨-1, by simp [PerProcess.toList], by decide⟩ (by decide)

/-- C4, amended: the status that an iteration leaves in `info_facto_qw` is the
maximum of the processes' statuses; it is nonzero exactly when some process's
status is positive or every process's status is negative. -/
theorem status_aggregation (my_elapsed : PerProcess ℚ) (my_info : PerProcess Int) (a : Accum) :
    (iteration my_elapsed my_info a).info_facto_qw = some (allreduceMax my_info) ∧
      (∀ x ∈ my_info.toList, x ≤ allreduceMax my_info) ∧
      allreduceMax my_info ∈ my_info.toList ∧
      (allreduceMax my_info ≠ 0 ↔
        (∃ x ∈ my_info.toList, 0 < x) ∨ (∀ x ∈ my_info.toList, x < 0)) := by
  have hge := allreduceMax_ge my_info
  have hmem := allreduceMax_mem my_info
  refine ⟨rfl, hge, hmem, ?_⟩
  constructor
  · intro hne
    rcases lt_or_gt_of_ne hne with hneg | hpos
    · right
      intro x hx
      exact lt_of_le_of_lt (hge x hx) hneg
    · left
      exact ⟨_, hmem, hpos⟩
  · rintro (⟨x, hx, hpos⟩ | hall)
    · exact ne_of_gt (lt_of_lt_of_le hpos (hge x hx))
    · exact ne_of_lt (hall _ hmem)

/-! ## Matrix-generation status -/

/-- C7, the code at the failing input: on a 2-process grid where `pdlatms_`
returns `info = 0` on rank 0 and `info = 3` on rank 1, each process tests its
own `info`: rank 0 goes on with the size while rank 1 leaves `main`. -/
theorem generation_status_not_reduced :
    (PerProcess.mk (0 : Int) [3]).toList.map generationFailed = [false, true] ∧
      (sizeCalls ⟨fun _ _ _ _ => [], 0, [], []⟩ 1 false (fun _ => [])).isSome = true ∧
      (sizeCalls ⟨fun _ _ _ _ => [], 3, [], []⟩ 1 false (fun _ => [])).isSome = false := by
  refine ⟨by decide, ?_, ?_⟩
  · simp [sizeCalls, generationFailed]
  · simp [sizeCalls, generationFailed]

/-! ## Flop count of the report -/

/-- The iteration loop leaves in `flops` the constant 0 once it has run, and
what it found when it has not run; the size plays no part. -/
theorem flops_after_loop (niter : Int) (my_elapsed : Nat → PerProcess ℚ)
    (my_info : Nat → PerProcess Int) (a : Accum) :
    (forLoop niter (fun iter a => iteration (my_elapsed iter) (my_info iter) a) a).flops
      = if 1 ≤ niter then some 0 else a.flops := by
  by_cases h : 1 ≤ niter
  · obtain ⟨k, rfl⟩ : ∃ k : Nat, niter = (k : Int) + 1 := ⟨(niter - 1).toNat, by omega⟩
    rw [forLoop_succ, if_pos h]
    rfl
  · rw [forLoop_nonpos _ _ _ (by omega), if_neg h]

/-- C9, the code on any two sizes: the flop count that the report of a size
uses does not depend on the size; once an iteration has run it is the constant
0 set at line 326, and the reported throughput `flops / 1e9 / min_time` is 0. -/
theorem report_flops_constant (n1 n2 niter : Int) (my_elapsed : Nat → PerProcess ℚ)
    (my_info : Nat → PerProcess Int) (prev : Accum) :
    (reportFor n1 niter my_elapsed my_info prev).flops
        = (reportFor n2 niter my_elapsed my_info prev).flops ∧
      (reportFor n1 niter my_elapsed my_info prev).flops
        = (if 1 ≤ niter then some 0 else prev.flops) ∧
      (reportFor 128 1 my_elapsed my_info prev).flops = some 0 ∧
      (reportFor 256 1 my_elapsed my_info prev).flops = some 0 ∧
      (reportFor 128 1 my_elapsed my_info prev).gflops = some 0 ∧
      (reportFor 256 1 my_elapsed my_info prev).gflops = some 0 := by
  have hflops : ∀ n i : Int, (reportFor n i my_elapsed my_info prev).flops
      = if 1 ≤ i then some 0 else prev.flops := by
    intro n i
    have := flops_after_loop i my_elapsed my_info (resetTimers prev)
    simpa [reportFor, report, resetTimers] using this
  have hg : ∀ n : Int, (reportFor n 1 my_elapsed my_info prev).gflops = some 0 := by
    intro n
    have h1 := hflops n 1
    simp only [reportFor, report] at h1 ⊢
    rw [h1]
    simp
  refine ⟨?_, hflops n1 niter, ?_, ?_, hg 128, hg 256⟩
  · rw [hflops n1 niter, hflops n2 niter]
  · simpa using hflops 128 1
  · simpa using hflops 256 1

/-! ## External calls and buffers of one size -/

theorem forLoop_toNat {σ : Type} (niter : Int) (body : Nat → σ → σ) (s : σ) :
    forLoop niter body s = forLoop ((niter.toNat : Nat) : Int) body s := by
  unfold forLoop
  rw [Int.toNat_ofNat]

theorem afterCall_of_not_writes (ext : Extern) (k : Nat) (c : Call) (m : Mem) (b : Buf)
    (h : b ∉ c.writes) : afterCall ext k c m b = m b := by
  simp [afterCall, h]

theorem afterCall_pdlacpy (ext : Extern) (k : Nat) (src dst : Buf) (m : Mem) :
    afterCall ext k (.pdlacpy src dst) m dst = m src := by
  simp [afterCall, Call.writes]

theorem sizeInv_call (ext : Extern) (pristine : Buffer) (gen cpy query : Event)
    (lWork1 lWork2 : Int) (k : Nat) (r : Run) (line : Nat) (c : Call)
    (h : SizeInv pristine gen cpy query lWork1 lWork2 k r)
    (hw : Buf.Acpy ∉ c.writes) (hl : line ≠ 338) (hc : ∀ a b : Int, c ≠ .pdgeqdwh a b) :
    SizeInv pristine gen cpy query lWork1 lWork2 k (callExt ext line c r) := by
  obtain ⟨hA, rest, hev, hkeep, cs, hdc, hlen, hcs⟩ := h
  have hafter : afterCall ext r.events.length c r.mem .Acpy = pristine := by
    rw [afterCall_of_not_writes ext _ c r.mem .Acpy hw, hA]
  refine ⟨hafter, rest ++ [⟨line, c, r.mem, afterCall ext r.events.length c r.mem⟩], ?_, ?_,
    cs, ?_, hlen, hcs⟩
  · simp [callExt, hev]
  · intro e he
    rcases List.mem_append.1 he with he | he
    · exact hkeep e he
    · rw [List.mem_singleton] at he
      subst he
      exact ⟨hw, hA, hafter, fun h338 => absurd h338 hl⟩
  · have hnil : decompCalls [⟨line, c, r.mem, afterCall ext r.events.length c r.mem⟩] = [] := by
      cases c with
      | pdgeqdwh a b => exact absurd rfl (hc a b)
      | _ => simp [decompCalls]
    have happ : decompCalls (rest ++ [⟨line, c, r.mem, afterCall ext r.events.length c r.mem⟩])
        = decompCalls rest
          ++ decompCalls [⟨line, c, r.mem, afterCall ext r.events.length c r.mem⟩] := by
      simp [decompCalls, List.filter_append]
    rw [happ, hnil, hdc]
    simp

theorem sizeInv_compute (ext : Extern) (pristine : Buffer) (gen cpy query : Event)
    (lWork1 lWork2 : Int) (k : Nat) (r : Run)
    (h : SizeInv pristine gen cpy query lWork1 lWork2 k r) (hin : r.mem .A = pristine) :
    SizeInv pristine gen cpy query lWork1 lWork2 (k + 1)
      (callExt ext 338 (.pdgeqdwh lWork1 lWork2) r) := by
  obtain ⟨hA, rest, hev, hkeep, cs, hdc, hlen, hcs⟩ := h
  have hw : Buf.Acpy ∉ (Call.pdgeqdwh lWork1 lWork2).writes := by simp [Call.writes]
  have hafter : afterCall ext r.events.length (.pdgeqdwh lWork1 lWork2) r.mem .Acpy
      = pristine := by
    rw [afterCall_of_not_writes ext _ _ r.mem .Acpy hw, hA]
  refine ⟨hafter,
    rest ++ [⟨338, .pdgeqdwh lWork1 lWork2, r.mem,
      afterCall ext r.events.length (.pdgeqdwh lWork1 lWork2) r.mem⟩], ?_, ?_,
    cs ++ [⟨338, .pdgeqdwh lWork1 lWork2, r.mem,
      afterCall ext r.events.length (.pdgeqdwh lWork1 lWork2) r.mem⟩], ?_, ?_, ?_⟩
  · simp [callExt, hev]
  · intro e he
    rcases List.mem_append.1 he with he | he
    · exact hkeep e he
    · rw [List.mem_singleton] at he
      subst he
      exact ⟨hw, hA, hafter, fun _ => hin⟩
  · simp only [decompCalls, List.filter_append] at hdc ⊢
    rw [hdc]
    simp
  · simp [hlen]
  · intro c hc
    rcases List.mem_append.1 hc with hc | hc
    · exact hcs c hc
    · rw [List.mem_singleton] at hc
      subst hc
      exact ⟨rfl, rfl⟩

theorem sizeInv_iteration (ext : Extern) (check : Bool) (pristine : Buffer)
    (gen cpy query : Event) (lWork1 lWork2 : Int) (k : Nat) (r : Run)
    (h : SizeInv pristine gen cpy query lWork1 lWork2 k r) :
    SizeInv pristine gen cpy query lWork1 lWork2 (k + 1)
      (iterationCalls ext check lWork1 lWork2 r) := by
  have h1 := sizeInv_call ext pristine gen cpy query lWork1 lWork2 k r 323
    (.pdlacpy .Acpy .A) h (by decide) (by decide) (by intro a b; simp)
  have hin : (callExt ext 323 (.pdlacpy .Acpy .A) r).mem .A = pristine := by
    have : (callExt ext 323 (.pdlacpy .Acpy .A) r).mem .A = r.mem .Acpy :=
      afterCall_pdlacpy ext r.events.length .Acpy .A r.mem
    rw [this, h.1]
  have h2 := sizeInv_compute ext pristine gen cpy query lWork1 lWork2 k _ h1 hin
  unfold iterationCalls
  cases check with
  | false => simpa using h2
  | true =>
    have h3 := sizeInv_call ext pristine gen cpy query lWork1 lWork2 (k + 1) _ 365
      (.pdlaset .C) h2 (by decide) (by decide) (by intro a b; simp)
    have h4 := sizeInv_call ext pristine gen cpy query lWork1 lWork2 (k + 1) _ 367
      (.pdgemm .A .A .C) h3 (by decide) (by decide) (by intro a b; simp)
    have h5 := sizeInv_call ext pristine gen cpy query lWork1 lWork2 (k + 1) _ 373
      (.pdlange .C .Wloc1) h4 (by decide) (by decide) (by intro a b; simp)
    have h6 := sizeInv_call ext pristine gen cpy query lWork1 lWork2 (k + 1) _ 377
      (.pdlacpy .Acpy .C) h5 (by decide) (by decide) (by intro a b; simp)
    have h7 := sizeInv_call ext pristine gen cpy query lWork1 lWork2 (k + 1) _ 379
      (.pdgemm .A .H .C) h6 (by decide) (by decide) (by intro a b; simp)
    have h8 := sizeInv_call ext pristine gen cpy query lWork1 lWork2 (k + 1) _ 385
      (.pdlange .C .Wloc1) h7 (by decide) (by decide) (by intro a b; simp)
    simpa using h8

theorem sizeInv_forLoop (ext : Extern) (check : Bool) (pristine : Buffer)
    (gen cpy query : Event) (lWork1 lWork2 : Int) (r : Run)
    (h : SizeInv pristine gen cpy query lWork1 lWork2 0 r) :
    ∀ k : Nat, SizeInv pristine gen cpy query lWork1 lWork2 k
      (forLoop (k : Int) (fun _ r => iterationCalls ext check lWork1 lWork2 r) r) := by
  intro k
  induction k with
  | zero => rw [forLoop_nonpos _ _ _ (by simp)]; exact h
  | succ k ih =>
    have hk : ((k + 1 : Nat) : Int) = (k : Int) + 1 := by push_cast; ring
    rw [hk, forLoop_succ]
    exact sizeInv_iteration ext check pristine gen cpy query lWork1 lWork2 k _ ih

/-- When the generation succeeds, `sizeCalls` returns a run whose events are the
generation, the copy into `Acpy`, and events satisfying the invariant for
`niter` passes through the loop, the workspace sizes being those read from the
first elements of the workspaces as the query call left them. -/
theorem sizeCalls_inv (ext : Extern) (niter : Int) (check : Bool) (m0 : Mem)
    (hgen : ext.latmsInfo = 0) :
    ∃ (r : Run) (gen cpy query : Event),
      sizeCalls ext niter check m0 = some r ∧
      (gen.line = 265 ∧ gen.call = .pdlatms ∧ gen.before = m0) ∧
      (cpy.line = 275 ∧ cpy.call = .pdlacpy .A .Acpy ∧ cpy.before = gen.after ∧
        cpy.after .Acpy = gen.after .A) ∧
      (query.line = 300 ∧ query.call = .pdgeqdwh (-1) (-1) ∧
        query.after = afterCall ext 3 (.pdgeqdwh (-1) (-1)) query.before) ∧
      SizeInv (gen.after .A) gen cpy query
        (doubleToInt (firstElem (query.after .Wloc1)))
        (doubleToInt (firstElem (query.after .Wloc2))) niter.toNat r := by
  have hfail : generationFailed ext.latmsInfo = false := by simp [generationFailed, hgen]
  let m1 : Mem := afterCall ext 0 .pdlatms m0
  let gen : Event := ⟨265, .pdlatms, m0, m1⟩
  let m2 : Mem := afterCall ext 1 (.pdlacpy .A .Acpy) m1
  let cpy : Event := ⟨275, .pdlacpy .A .Acpy, m1, m2⟩
  let m3 : Mem := afterCall ext 2 (.pdlange .A .Wloc1) m2
  let nrm : Event := ⟨278, .pdlange .A .Wloc1, m2, m3⟩
  let m4 : Mem := Function.update (Function.update m3 .Wloc1 [0]) .Wloc2 [0]
  let m5 : Mem := afterCall ext 3 (.pdgeqdwh (-1) (-1)) m4
  let query : Event := ⟨300, .pdgeqdwh (-1) (-1), m4, m5⟩
  let lWork1 : Int := doubleToInt (firstElem (m5 .Wloc1))
  let lWork2 : Int := doubleToInt (firstElem (m5 .Wloc2))
  let m6 : Mem := Function.update (Function.update m5 .Wloc1 ext.fresh1) .Wloc2 ext.fresh2
  let r0 : Run := ⟨m6, [gen, cpy, nrm, query]⟩
  have hr : sizeCalls ext niter check m0
      = some (forLoop niter (fun _ r => iterationCalls ext check lWork1 lWork2 r) r0) := by
    simp only [sizeCalls, hfail]
    rfl
  have hcopy : m2 .Acpy = m1 .A := afterCall_pdlacpy ext 1 .A .Acpy m1
  have h3 : m3 .Acpy = m1 .A := by
    have : m3 .Acpy = m2 .Acpy :=
      afterCall_of_not_writes ext 2 (.pdlange .A .Wloc1) m2 .Acpy (by simp [Call.writes])
    rw [this, hcopy]
  have h4 : m4 .Acpy = m1 .A := by
    show Function.update (Function.update m3 .Wloc1 [0]) .Wloc2 [0] .Acpy = m1 .A
    rw [Function.update_noteq (by decide), Function.update_noteq (by decide), h3]
  have h5 : m5 .Acpy = m1 .A := by
    have : m5 .Acpy = m4 .Acpy :=
      afterCall_of_not_writes ext 3 (.pdgeqdwh (-1) (-1)) m4 .Acpy (by simp [Call.writes])
    rw [this, h4]
  have h6 : m6 .Acpy = m1 .A := by
    show Function.update (Function.update m5 .Wloc1 ext.fresh1) .Wloc2 ext.fresh2 .Acpy = m1 .A
    rw [Function.update_noteq (by decide), Function.update_noteq (by decide), h5]
  have h0 : SizeInv (m1 .A) gen cpy query lWork1 lWork2 0 r0 := by
    refine ⟨h6, [nrm, query], rfl, ?_, [], ?_, rfl, ?_⟩
    · intro e he
      rcases List.mem_cons.1 he with rfl | he
      · exact ⟨by simp [nrm, Call.writes], hcopy, h3, by simp [nrm]⟩
      · rw [List.mem_singleton] at he
        subst he
        exact ⟨by simp [query, Call.writes], h4, h5, by simp [query]⟩
    · simp [decompCalls, nrm, query]
    · intro c hc
      simp at hc
  have hk := sizeInv_forLoop ext check (m1 .A) gen cpy query lWork1 lWork2 r0 h0 niter.toNat
  rw [← forLoop_toNat] at hk
  exact ⟨_, gen, cpy, query, hr, ⟨rfl, rfl, rfl⟩, ⟨rfl, rfl, rfl, hcopy⟩, ⟨rfl, rfl, rfl⟩, hk⟩

/-- C5. RestoreCopy: for a size whose matrix was generated, whatever the number
of iterations and whatever the external routines leave in the buffers they
write, the run consists of the generation, the copy of `A` into `Acpy`, and
calls none of which may write `Acpy`, which holds the generated matrix before
and after each of them and at the end; the calls of `pdgeqdwh` after the query
are the `niter` compute calls, and each is given in `A` the generated matrix. -/
theorem restoreCopy_frame (ext : Extern) (niter : Int) (check : Bool) (m0 : Mem)
    (hgen : ext.latmsInfo = 0) :
    ∃ (r : Run) (gen cpy query : Event) (rest computes : List Event),
      sizeCalls ext niter check m0 = some r ∧
      r.events = gen :: cpy :: rest ∧
      gen.call = .pdlatms ∧
      cpy.call = .pdlacpy .A .Acpy ∧ cpy.before = gen.after ∧ cpy.after .Acpy = gen.after .A ∧
      (∀ e ∈ rest, Buf.Acpy ∉ e.call.writes ∧ e.before .Acpy = gen.after .A ∧
        e.after .Acpy = gen.after .A) ∧
      r.mem .Acpy = gen.after .A ∧
      decompCalls rest = query :: computes ∧
      computes.length = niter.toNat ∧
      ∀ c ∈ computes, c.line = 338 ∧ c.before .A = gen.after .A := by
  obtain ⟨r, gen, cpy, query, hr, ⟨_, hg, _⟩, ⟨_, hc1, hc2, hc3⟩, _, hA, rest, hev, hkeep,
    cs, hdc, hlen, hcs⟩ := sizeCalls_inv ext niter check m0 hgen
  refine ⟨r, gen, cpy, query, rest, cs, hr, hev, hg, hc1, hc2, hc3, ?_, hA, hdc, hlen, ?_⟩
  · intro e he
    exact ⟨(hkeep e he).1, (hkeep e he).2.1, (hkeep e he).2.2.1⟩
  · intro c hc
    have hmem : c ∈ decompCalls rest := by rw [hdc]; exact List.mem_cons_of_mem _ hc
    have hrest : c ∈ rest := (List.mem_filter.1 hmem).1
    exact ⟨(hcs c hc).1, (hkeep c hrest).2.2.2 (hcs c hc).1⟩

/-- Witness for C5: two iterations with the checks, on external routines that
leave `[7]` in every buffer they write. -/
theorem restoreCopy_frame_witness :
    ∃ (r : Run) (gen cpy query : Event) (rest computes : List Event),
      sizeCalls ⟨fun _ _ _ _ => [7], 0, [], []⟩ 2 true (fun _ => []) = some r ∧
      r.events = gen :: cpy :: rest ∧
      gen.call = .pdlatms ∧
      cpy.call = .pdlacpy .A .Acpy ∧ cpy.before = gen.after ∧ cpy.after .Acpy = gen.after .A ∧
      (∀ e ∈ rest, Buf.Acpy ∉ e.call.writes ∧ e.before .Acpy = gen.after .A ∧
        e.after .Acpy = gen.after .A) ∧
      r.mem .Acpy = gen.after .A ∧
      decompCalls rest = query :: computes ∧
      computes.length = (2 : Int).toNat ∧
      ∀ c ∈ computes, c.line = 338 ∧ c.before .A = gen.after .A :=
  restoreCopy_frame ⟨fun _ _ _ _ => [7], 0, [], []⟩ 2 true (fun _ => []) rfl

end TimingPdgeqdwh
